import Mathlib

/-!
Verification of the tree component of the repository
(`memory_management_in_cyclic_data_structures(tree).py`).

The Python object graph is embedded as an arena: a `List Node` indexed by
position (insertion order).  Python references to nodes become arena
indices (`Nat`); the weak parent reference becomes `Option Nat` (the Tree
keeps every node alive, so dereferencing the weakref always succeeds while
the Tree exists).  Field mutation becomes functional update of the arena.
Python `dict.get` on possibly missing keys becomes `Option` fields.
-/

/-- An input record (`item`), as consumed by `Tree.create_node` via
`item.get('id')`, `item.get('title')`, `item.get('parent_id')`. -/
structure Item where
  id : Option Int
  title : Option String
  parentId : Option Int
deriving Repr, DecidableEq

/-- A `Node` of the Python source: `id`, `title`, `parent_id` stored as
given; `_parent` (exposed through the `parent` property) is an optional
arena index; `children` is a list of arena indices. -/
structure Node where
  id : Option Int
  title : Option String
  parentId : Option Int
  parent : Option Nat
  children : List Nat
deriving Repr, DecidableEq

/-- The Tree's `self.nodes`: the arena owning every node, in insertion
order. -/
abbrev Arena := List Node

/-- The `children` list of the node at index `i` (empty if out of range;
in-range accesses are the only ones that occur). -/
def childrenOf (a : Arena) (i : Nat) : List Nat :=
  match a[i]? with
  | some n => n.children
  | none => []

/-- First pass of `Tree.__init__`: `create_node` for each record, in input
order, with `parent` unset and `children` empty. -/
def createNodes (items : List Item) : Arena :=
  items.map (fun it =>
    { id := it.id, title := it.title, parentId := it.parentId,
      parent := none, children := [] })

/-- First statement of `Node.add_child`: `self.children.append(node_)`
for the node at index `i`, appending index `j`. -/
def appendKid (a : Arena) (i j : Nat) : Arena :=
  match a[i]? with
  | some n => a.set i { n with children := n.children ++ [j] }
  | none => a

/-- Second statement of `Node.add_child`: `node_.parent = self`, setting
the parent of the node at index `j` to index `i`. -/
def setPar (a : Arena) (j i : Nat) : Arena :=
  match a[j]? with
  | some c => a.set j { c with parent := some i }
  | none => a

/-- `Node.add_child` on the arena: node `i` adopts node `j`. -/
def addChild (a : Arena) (i j : Nat) : Arena :=
  setPar (appendKid a i j) j i

/-- The `filter(lambda x: x.parent_id == n.id, self.nodes)` of
`populate_children`, as the list of matching indices in node order.
The lambda reads only `parent_id` and `id`, which `add_child` never
mutates, so evaluating Python's lazy filter eagerly is observationally
identical. -/
def childIdxs (a : Arena) (i : Nat) : List Nat :=
  (List.range a.length).filter (fun j =>
    match a[j]?, a[i]? with
    | some x, some n => x.parentId == n.id
    | _, _ => false)

/-- One iteration of the outer loop of `populate_children`: add every
matching child to the node at index `i`. -/
def populateOne (a : Arena) (i : Nat) : Arena :=
  (childIdxs a i).foldl (fun acc j => addChild acc i j) a

/-- `Tree.populate_children`: the outer loop over `self.nodes`. -/
def populateChildren (a : Arena) : Arena :=
  (List.range a.length).foldl populateOne a

/-- `Tree.__init__`: create all nodes, then populate children. -/
def mkTree (items : List Item) : Arena :=
  populateChildren (createNodes items)

/-- Truthiness of a Python node reference: `None` is falsy; a `Node` is
truthy iff `Node.__len__`, i.e. `len(self.children)`, is nonzero. -/
def nodeTruthy (a : Arena) : Option Nat → Bool
  | none => false
  | some i =>
    match a[i]? with
    | some n => decide (n.children ≠ [])
    | none => false

/-- The `parent` of the node reference held in `node_` (the property
dereferences the weakref; all nodes stay alive inside the Tree). -/
def parentOf (a : Arena) : Option Nat → Option Nat
  | none => none
  | some i =>
    match a[i]? with
    | some n => n.parent
    | none => none

/-- The loop of `Tree.ancestors`, fuel-bounded (the Python loop can
diverge on cyclic input; `none` means the fuel ran out).

```
while node_:
    node_ = node_.parent
    parents.insert(0, node)
```

`node` in the loop body is a module-level global: it is only bound by the
demo loop under `if __name__ == '__main__'`.  `g` is that global binding;
`g = none` (the library/import context) makes the statement raise
`NameError`. -/
def ancestorsFuel (a : Arena) (g : Option Nat) :
    Nat → Option Nat → List Nat → Option (Except String (List Nat))
  | 0, _, _ => none
  | fuel+1, node?, parents =>
    if nodeTruthy a node? then
      match g with
      | none => some (Except.error "NameError")
      | some gi => ancestorsFuel a g fuel (parentOf a node?) (gi :: parents)
    else
      some (Except.ok parents)

/-- `Tree.ancestors(n)` for the node at index `i`. -/
def ancestors (a : Arena) (g : Option Nat) (i : Nat) (fuel : Nat) :
    Option (Except String (List Nat)) :=
  ancestorsFuel a g fuel (some i) []

/-- `Tree.children(n)`: returns `n.children` as is. -/
def childrenQuery (a : Arena) (i : Nat) : List Nat :=
  childrenOf a i

/-- The value of `Tree.root`: either a node or the literal empty list the
source returns when `ancestors` is empty. -/
inductive RootResult where
  | node (i : Nat)
  | emptyList
deriving Repr, DecidableEq

/-- `Tree.root(n)`: `ancestors[0] if ancestors else []`. -/
def rootFuel (a : Arena) (g : Option Nat) (fuel : Nat) (i : Nat) :
    Option (Except String RootResult) :=
  match ancestorsFuel a g fuel (some i) [] with
  | none => none
  | some (Except.error e) => some (Except.error e)
  | some (Except.ok []) => some (Except.ok RootResult.emptyList)
  | some (Except.ok (x :: _)) => some (Except.ok (RootResult.node x))

/-- An entry of the `stack` local of `Tree.descendants`: the first entry
is the local list `n.children.copy()` (a plain value), every pushed entry
is `child.children` itself — an alias of the node's field, so popping
from it mutates the arena. -/
inductive StackEntry where
  | copy (l : List Nat)
  | shared (j : Nat)
deriving Repr, DecidableEq

/-- The list a stack entry currently denotes. -/
def entryList (a : Arena) : StackEntry → List Nat
  | .copy l => l
  | .shared j => childrenOf a j

/-- Overwrite the `children` field of the node at index `j`. -/
def setKids (a : Arena) (j : Nat) (l : List Nat) : Arena :=
  match a[j]? with
  | some n => a.set j { n with children := l }
  | none => a

/-- One iteration of the `while stack:` loop of `Tree.descendants`.
The top of the stack is the head of the list (`stack[-1]` in Python).
Returns `none` when the stack is empty (the generator is exhausted);
otherwise the new arena, new stack, and the yielded index if any.

```
children = stack[-1]
if children:
    child = children.pop(0)      # mutates the aliased field
    yield child
    if child.children:
        stack.append(child.children)
else:
    stack.pop()
``` -/
def descStep (a : Arena) :
    List StackEntry → Option (Arena × List StackEntry × Option Nat)
  | [] => none
  | e :: rest =>
    match entryList a e with
    | [] => some (a, rest, none)
    | c :: tl =>
      let p : Arena × StackEntry :=
        match e with
        | .copy _ => (a, StackEntry.copy tl)
        | .shared j => (setKids a j tl, StackEntry.shared j)
      let a' := p.1
      if childrenOf a' c ≠ [] then
        some (a', StackEntry.shared c :: p.2 :: rest, some c)
      else
        some (a', p.2 :: rest, some c)

/-- Run the `descendants` loop to exhaustion, fuel-bounded, accumulating
the yielded indices in order. -/
def descRun : Nat → Arena → List StackEntry → List Nat →
    Option (Arena × List Nat)
  | 0, _, _, _ => none
  | fuel+1, a, st, out =>
    match descStep a st with
    | none => some (a, out)
    | some (a', st', y?) =>
      descRun fuel a' st' (out ++ y?.toList)

/-- A full enumeration of `Tree.descendants(n)` for the node at index
`i`: start from `[n.children.copy()]` and run to exhaustion.  Returns the
final arena (the enumeration mutates it) and the yielded indices. -/
def descendantsRun (a : Arena) (i : Nat) (fuel : Nat) :
    Option (Arena × List Nat) :=
  descRun fuel a [StackEntry.copy (childrenOf a i)] []

/-- The module-level `data` list of the source. -/
def sampleItems : List Item :=
  [ { id := some 1, title := some "Category #1", parentId := none },
    { id := some 2, title := some "Category #2", parentId := none },
    { id := some 3, title := some "Category #3", parentId := some 1 },
    { id := some 4, title := some "Category #4", parentId := some 2 },
    { id := some 5, title := some "Category #5", parentId := some 3 },
    { id := some 6, title := some "Category #6", parentId := some 4 },
    { id := some 7, title := some "Category #7", parentId := some 6 },
    { id := some 8, title := some "Category #8", parentId := some 5 },
    { id := some 9, title := some "Category #9", parentId := some 5 } ]

/-- The module-level `tree = Tree(items=data)`. -/
def sampleTree : Arena :=
  mkTree sampleItems

/-! ### Closed form of `Tree.__init__`

`populate_children` iterates over nodes in order; for node `m` it appends
every matching child and overwrites each child's parent with `m`.  The
final arena therefore has, at index `k`: the record's own fields, a
`children` list holding exactly the matching indices in order, and a
`parent` equal to the last matching index scanned. -/

/-- Fallback for reading a record at an index (never hit in range). -/
def itemDefault : Item := { id := none, title := none, parentId := none }

/-- The record at index `m`. -/
def itemAt (items : List Item) (m : Nat) : Item :=
  (items[m]?).getD itemDefault

/-- `matchesB items k m` is the `populate_children` predicate: record
`k`'s `parent_id == ` record `m`'s `id` (Python `==`; `None == None` is
true). -/
def matchesB (items : List Item) (k m : Nat) : Bool :=
  (itemAt items k).parentId == (itemAt items m).id

/-- The final `children` list of node `m`: all matching indices in
order. -/
def childFilter (items : List Item) (m : Nat) : List Nat :=
  (List.range items.length).filter (fun j => matchesB items j m)

/-- The `parent` of node `k` after the outer loop has processed nodes
`0, …, t-1`: the last processed index whose `id` matched. -/
def pParent (items : List Item) (k : Nat) : Nat → Option Nat
  | 0 => none
  | t+1 => if matchesB items k t then some t else pParent items k t

/-- Node `k` after the outer loop has processed nodes `0, …, t-1`. -/
def pNode (items : List Item) (t k : Nat) : Node :=
  { id := (itemAt items k).id, title := (itemAt items k).title,
    parentId := (itemAt items k).parentId,
    parent := pParent items k t,
    children := if k < t then childFilter items k else [] }

/-- The arena after the outer loop has processed nodes `0, …, t-1`. -/
def partialArena (items : List Item) (t : Nat) : Arena :=
  (List.range items.length).map (pNode items t)

/-- The fully constructed arena. -/
def builtArena (items : List Item) : Arena :=
  partialArena items items.length

theorem partialArena_length (items : List Item) (t : Nat) :
    (partialArena items t).length = items.length := by
  simp [partialArena]

theorem partialArena_get? (items : List Item) (t k : Nat) :
    (partialArena items t)[k]? =
      if k < items.length then some (pNode items t k) else none := by
  by_cases h : k < items.length
  · simp [partialArena, List.getElem?_map, List.getElem?_range h, h]
  · simp only [partialArena, List.getElem?_map]
    rw [List.getElem?_eq_none (by simpa using h)]
    simp [h]

theorem createNodes_eq (items : List Item) :
    createNodes items = partialArena items 0 := by
  apply List.ext_getElem?
  intro k
  rw [partialArena_get?]
  by_cases h : k < items.length
  · have : items[k]? = some items[k] := List.getElem?_eq_getElem h
    simp [createNodes, List.getElem?_map, this, h, pNode, pParent, itemAt]
  · rw [List.getElem?_eq_none (by simpa [createNodes] using h)]
    simp [h]


theorem appendKid_get? (a : Arena) (i j k : Nat) :
    (appendKid a i j)[k]? = (a[k]?).map (fun n =>
      if k = i then { n with children := n.children ++ [j] } else n) := by
  unfold appendKid
  cases hia : a[i]? with
  | none =>
    by_cases hk : k = i
    · subst hk
      rw [hia]
      rfl
    · cases a[k]? with
      | none => rfl
      | some nk => simp [hk]
  | some ni =>
    have hi : i < a.length := (List.getElem?_eq_some.mp hia).1
    rw [List.getElem?_set]
    by_cases hk : i = k
    · subst hk
      rw [if_pos rfl, if_pos hi, hia]
      simp
    · rw [if_neg hk]
      cases a[k]? with
      | none => rfl
      | some nk => simp [Ne.symm hk]

theorem setPar_get? (a : Arena) (j i k : Nat) :
    (setPar a j i)[k]? = (a[k]?).map (fun n =>
      if k = j then { n with parent := some i } else n) := by
  unfold setPar
  cases hja : a[j]? with
  | none =>
    by_cases hk : k = j
    · subst hk
      rw [hja]
      rfl
    · cases a[k]? with
      | none => rfl
      | some nk => simp [hk]
  | some nj =>
    have hj : j < a.length := (List.getElem?_eq_some.mp hja).1
    rw [List.getElem?_set]
    by_cases hk : j = k
    · subst hk
      rw [if_pos rfl, if_pos hj, hja]
      simp
    · rw [if_neg hk]
      cases a[k]? with
      | none => rfl
      | some nk => simp [Ne.symm hk]

/-- What `add_child` does to each slot of the arena. -/
theorem addChild_get? (a : Arena) (i j k : Nat) :
    (addChild a i j)[k]? = (a[k]?).map (fun n =>
      { n with children := if k = i then n.children ++ [j] else n.children,
               parent := if k = j then some i else n.parent }) := by
  unfold addChild
  rw [setPar_get?, appendKid_get?, Option.map_map]
  cases a[k]? with
  | none => rfl
  | some nk =>
    simp only [Option.map_some', Function.comp]
    by_cases hki : k = i <;> by_cases hkj : k = j
    · have hij : i = j := by omega
      simp [hki, hkj, hij]
    · have hij : ¬ i = j := by omega
      simp [hki, hkj, hij]
    · have hji : ¬ j = i := by omega
      simp [hki, hkj, hji]
    · simp [hki, hkj]

theorem appendKid_length (a : Arena) (i j : Nat) :
    (appendKid a i j).length = a.length := by
  unfold appendKid
  cases a[i]? with
  | none => rfl
  | some n => simp

theorem setPar_length (a : Arena) (j i : Nat) :
    (setPar a j i).length = a.length := by
  unfold setPar
  cases a[j]? with
  | none => rfl
  | some n => simp

theorem addChild_length (a : Arena) (i j : Nat) :
    (addChild a i j).length = a.length := by
  unfold addChild
  rw [setPar_length, appendKid_length]

/-- Folding `add_child` over a list of child indices: node `i` gets them
all appended, each of them gets parent `i`. -/
theorem foldl_addChild_get? (i : Nat) (J : List Nat) (a : Arena) (k : Nat) :
    (J.foldl (fun acc j => addChild acc i j) a)[k]? =
      (a[k]?).map (fun n =>
        { n with children := if k = i then n.children ++ J else n.children,
                 parent := if k ∈ J then some i else n.parent }) := by
  induction J generalizing a with
  | nil =>
    simp only [List.foldl_nil]
    cases a[k]? with
    | none => rfl
    | some nk => simp
  | cons j J ih =>
    show (J.foldl (fun acc j => addChild acc i j) (addChild a i j))[k]? = _
    rw [ih, addChild_get?, Option.map_map]
    cases a[k]? with
    | none => rfl
    | some nk =>
      simp only [Option.map_some', Function.comp, List.mem_cons]
      split_ifs <;> simp_all

theorem foldl_addChild_length (i : Nat) (J : List Nat) (a : Arena) :
    (J.foldl (fun acc j => addChild acc i j) a).length = a.length := by
  induction J generalizing a with
  | nil => rfl
  | cons j J ih =>
    show (J.foldl (fun acc j => addChild acc i j) (addChild a i j)).length = _
    rw [ih, addChild_length]

theorem populateOne_get? (a : Arena) (i k : Nat) :
    (populateOne a i)[k]? = (a[k]?).map (fun n =>
      { n with children := if k = i then n.children ++ childIdxs a i else n.children,
               parent := if k ∈ childIdxs a i then some i else n.parent }) :=
  foldl_addChild_get? i (childIdxs a i) a k

theorem mem_childFilter (items : List Item) (k m : Nat) :
    k ∈ childFilter items m ↔ k < items.length ∧ matchesB items k m := by
  simp [childFilter, List.mem_filter, List.mem_range]

theorem childIdxs_partial (items : List Item) (t : Nat) (ht : t < items.length) :
    childIdxs (partialArena items t) t = childFilter items t := by
  unfold childIdxs childFilter
  rw [partialArena_length]
  apply List.filter_congr
  intro j hj
  have hjlen : j < items.length := List.mem_range.mp hj
  simp [partialArena_get?, pNode, matchesB, hjlen, ht]

theorem populateOne_partial (items : List Item) (t : Nat) (ht : t < items.length) :
    populateOne (partialArena items t) t = partialArena items (t+1) := by
  apply List.ext_getElem?
  intro k
  rw [populateOne_get?, childIdxs_partial items t ht, partialArena_get?, partialArena_get?]
  by_cases hk : k < items.length
  · rw [if_pos hk, if_pos hk]
    simp only [Option.map_some']
    congr 1
    unfold pNode
    simp only [Node.mk.injEq, true_and]
    constructor
    · show (if k ∈ childFilter items t then some t else pParent items k t) = pParent items k (t+1)
      show _ = if matchesB items k t then some t else pParent items k t
      by_cases hm : matchesB items k t
      · rw [if_pos hm, if_pos ((mem_childFilter items k t).mpr ⟨hk, hm⟩)]
      · rw [if_neg hm, if_neg (fun hin => hm ((mem_childFilter items k t).mp hin).2)]
    · by_cases hkt : k = t
      · have h1 : ¬ t < t := Nat.lt_irrefl t
        have h2 : t < t + 1 := Nat.lt_succ_self t
        subst hkt
        simp [h1, h2]
      · by_cases hlt : k < t
        · have h2 : k < t + 1 := by omega
          simp [hkt, hlt, h2]
        · have h2 : ¬ k < t + 1 := by omega
          simp [hkt, hlt, h2]
  · rw [if_neg hk, if_neg hk]
    rfl

theorem populateChildren_partial (items : List Item) :
    ∀ t, t ≤ items.length →
      (List.range t).foldl populateOne (partialArena items 0) = partialArena items t := by
  intro t
  induction t with
  | zero => intro _; rfl
  | succ t ih =>
    intro ht
    rw [List.range_succ, List.foldl_append, ih (by omega)]
    simp only [List.foldl_cons, List.foldl_nil]
    exact populateOne_partial items t (by omega)

/-- Closed form of the whole construction. -/
theorem mkTree_eq (items : List Item) : mkTree items = builtArena items := by
  unfold mkTree populateChildren builtArena
  rw [createNodes_eq, partialArena_length]
  exact populateChildren_partial items items.length le_rfl

theorem mkTree_get? (items : List Item) (k : Nat) :
    (mkTree items)[k]? =
      if k < items.length then some (pNode items items.length k) else none := by
  rw [mkTree_eq]
  exact partialArena_get? items items.length k

theorem mkTree_length (items : List Item) :
    (mkTree items).length = items.length := by
  rw [mkTree_eq]
  exact partialArena_length items items.length

/-! ### Claims C2 and C9: the parent/children structure after construction -/

theorem pParent_eq_none (items : List Item) (k : Nat)
    (h : ∀ m, matchesB items k m = false) :
    ∀ t, pParent items k t = none := by
  intro t
  induction t with
  | zero => rfl
  | succ t ih =>
    unfold pParent
    rw [h t]
    simpa using ih

theorem pParent_eq_some (items : List Item) (k m0 : Nat)
    (hm : ∀ m, matchesB items k m = true ↔ m = m0) :
    ∀ t, m0 < t → pParent items k t = some m0 := by
  intro t
  induction t with
  | zero => omega
  | succ t ih =>
    intro ht
    unfold pParent
    by_cases h : m0 = t
    · subst h
      rw [(hm m0).mpr rfl]
      rfl
    · have hf : matchesB items k t = false :=
        eq_false_of_ne_true (fun htr => h ((hm t).mp htr).symm)
      rw [hf]
      simpa using ih (by omega)

theorem itemAt_of_getElem? (items : List Item) (k : Nat) (it : Item)
    (h : items[k]? = some it) : itemAt items k = it := by
  unfold itemAt
  rw [h]
  rfl

theorem itemAt_id_eq (items : List Item) (m : Nat) (hm : m < items.length) :
    (itemAt items m).id = (items.map Item.id).get ⟨m, by simpa using hm⟩ := by
  unfold itemAt
  rw [List.getElem?_eq_getElem hm]
  simp

/-- C2: after constructing a Tree from records with unique ids whose every
non-null `parent_id` occurs among the ids, every node with non-null
`parent_id` has `parent` pointing to the unique node whose `id` equals
that `parent_id`, and that node's `children` list contains it exactly
once (and no other node's `children` contains it at all). -/
theorem claim_C2_parent_child_links (items : List Item)
    (huniq : (items.map Item.id).Nodup)
    (k : Nat) (nk : Node) (hk : (mkTree items)[k]? = some nk)
    (p : Int) (hp : nk.parentId = some p)
    (hcover : some p ∈ items.map Item.id) :
    ∃ m nm, (mkTree items)[m]? = some nm ∧ nm.id = some p ∧
      nk.parent = some m ∧ nm.children.count k = 1 ∧
      (∀ m' nm', (mkTree items)[m']? = some nm' → m' ≠ m →
        nm'.id ≠ some p ∧ k ∉ nm'.children) := by
  rw [mkTree_get?] at hk
  by_cases hklen : k < items.length
  swap
  · rw [if_neg hklen] at hk
    exact absurd hk (by simp)
  rw [if_pos hklen] at hk
  have hnk : nk = pNode items items.length k := (Option.some.inj hk).symm
  -- the unique index m0 whose id is `some p`
  rcases List.getElem_of_mem hcover with ⟨m0raw, hm0lt, hm0eq⟩
  have hm0len : m0raw < items.length := by simpa using hm0lt
  have hid0 : (itemAt items m0raw).id = some p := by
    rw [itemAt_id_eq items m0raw hm0len]
    exact hm0eq
  have huniqIdx : ∀ m, m < items.length → (itemAt items m).id = some p → m = m0raw := by
    intro m hmlen hmid
    have h1 : (items.map Item.id).get ⟨m, by simpa using hmlen⟩ =
        (items.map Item.id).get ⟨m0raw, by simpa using hm0len⟩ := by
      rw [← itemAt_id_eq items m hmlen, ← itemAt_id_eq items m0raw hm0len, hmid, hid0]
    exact congrArg Fin.val ((List.Nodup.get_inj_iff huniq).mp h1)
  have hpid : (itemAt items k).parentId = some p := by
    rw [hnk] at hp
    exact hp
  have hmatch : ∀ m, matchesB items k m = true ↔ m = m0raw := by
    intro m
    unfold matchesB
    rw [hpid]
    constructor
    · intro hb
      have hidm : (itemAt items m).id = some p := (beq_iff_eq.mp hb).symm
      by_cases hmlen : m < items.length
      · exact huniqIdx m hmlen hidm
      · exfalso
        have : items[m]? = none := List.getElem?_eq_none (by omega)
        unfold itemAt at hidm
        rw [this] at hidm
        exact absurd hidm (by simp [itemDefault])
    · intro hm
      subst hm
      rw [hid0]
      exact beq_iff_eq.mpr rfl
  refine ⟨m0raw, pNode items items.length m0raw, ?_, hid0, ?_, ?_, ?_⟩
  · rw [mkTree_get?, if_pos hm0len]
  · rw [hnk]
    show pParent items k items.length = some m0raw
    exact pParent_eq_some items k m0raw hmatch items.length hm0len
  · show (if m0raw < items.length then childFilter items m0raw else []).count k = 1
    rw [if_pos hm0len]
    unfold childFilter
    rw [List.count_filter (by simpa using (hmatch m0raw).mpr rfl)]
    exact List.count_eq_one_of_mem (List.nodup_range items.length)
      (List.mem_range.mpr hklen)
  · intro m' nm' hm' hne
    rw [mkTree_get?] at hm'
    by_cases hm'len : m' < items.length
    swap
    · rw [if_neg hm'len] at hm'
      exact absurd hm' (by simp)
    rw [if_pos hm'len] at hm'
    have hnm' : nm' = pNode items items.length m' := (Option.some.inj hm').symm
    constructor
    · rw [hnm']
      show (itemAt items m').id ≠ some p
      intro hid'
      exact hne (huniqIdx m' hm'len hid')
    · rw [hnm']
      show k ∉ (if m' < items.length then childFilter items m' else [])
      rw [if_pos hm'len]
      intro hmem
      have := ((mem_childFilter items k m').mp hmem).2
      exact hne ((hmatch m').mp this)

/-- The node the construction builds for record index 2 (id 3) of the
sample data. -/
def sampleNode2 : Node :=
  { id := some 3, title := some "Category #3", parentId := some 1,
    parent := some 0, children := [4] }

/-- Witness for C2 at the sample data: record index 2 (id 3, parent_id 1)
is linked to record index 0 (id 1). -/
theorem claim_C2_witness :
    ((sampleItems.map Item.id).Nodup ∧
      (mkTree sampleItems)[2]? = some sampleNode2 ∧
      sampleNode2.parentId = some 1 ∧
      some (1 : Int) ∈ sampleItems.map Item.id) ∧
    (∃ m nm, (mkTree sampleItems)[m]? = some nm ∧ nm.id = some 1 ∧
      sampleNode2.parent = some m ∧ nm.children.count 2 = 1 ∧
      (∀ m' nm', (mkTree sampleItems)[m']? = some nm' → m' ≠ m →
        nm'.id ≠ some 1 ∧ 2 ∉ nm'.children)) :=
  ⟨⟨by decide, by decide, by decide, by decide⟩,
    claim_C2_parent_child_links sampleItems (by decide) 2 sampleNode2
      (by decide) 1 (by decide) (by decide)⟩

/-- C9: a record whose non-null `parent_id` matches no record's `id` still
yields a Node, at its input position, with the record's fields and with
an unset parent; construction runs to completion (it is a total function,
and the arena keeps one node per record). -/
theorem claim_C9_dangling_parent (items : List Item) (k : Nat) (it : Item)
    (hk : items[k]? = some it) (p : Int) (hp : it.parentId = some p)
    (hdangling : some p ∉ items.map Item.id) :
    (mkTree items).length = items.length ∧
      ∃ nk, (mkTree items)[k]? = some nk ∧ nk.id = it.id ∧
        nk.title = it.title ∧ nk.parentId = it.parentId ∧
        nk.parent = none ∧ nk.children = childFilter items k := by
  have hklen : k < items.length := (List.getElem?_eq_some.mp hk).1
  have hitem : itemAt items k = it := itemAt_of_getElem? items k it hk
  refine ⟨mkTree_length items, pNode items items.length k, ?_, ?_, ?_, ?_, ?_, ?_⟩
  · rw [mkTree_get?, if_pos hklen]
  · show (itemAt items k).id = it.id
    rw [hitem]
  · show (itemAt items k).title = it.title
    rw [hitem]
  · show (itemAt items k).parentId = it.parentId
    rw [hitem]
  · show pParent items k items.length = none
    apply pParent_eq_none
    intro m
    unfold matchesB
    rw [hitem, hp]
    apply eq_false_of_ne_true
    intro hb
    have hidm : (itemAt items m).id = some p := (beq_iff_eq.mp hb).symm
    by_cases hmlen : m < items.length
    · apply hdangling
      rw [itemAt_id_eq items m hmlen] at hidm
      rw [← hidm]
      exact List.getElem_mem _
    · have : items[m]? = none := List.getElem?_eq_none (by omega)
      unfold itemAt at hidm
      rw [this] at hidm
      exact absurd hidm (by simp [itemDefault])
  · show (if k < items.length then childFilter items k else []) = _
    rw [if_pos hklen]

/-- The sample data extended with a record whose `parent_id` (99) matches
no id. -/
def danglingItems : List Item :=
  sampleItems ++ [{ id := some 10, title := some "Category #10", parentId := some 99 }]

/-- Witness for C9 at index 9 of the extended sample. -/
theorem claim_C9_witness :
    (danglingItems[9]? =
        some { id := some 10, title := some "Category #10", parentId := some 99 } ∧
      some (99 : Int) ∉ danglingItems.map Item.id) ∧
    ((mkTree danglingItems).length = danglingItems.length ∧
      ∃ nk, (mkTree danglingItems)[9]? = some nk ∧ nk.id = some 10 ∧
        nk.title = some "Category #10" ∧ nk.parentId = some 99 ∧
        nk.parent = none ∧ nk.children = childFilter danglingItems 9) :=
  ⟨⟨by decide, by decide⟩,
    claim_C9_dangling_parent danglingItems 9
      { id := some 10, title := some "Category #10", parentId := some 99 }
      (by decide) 99 (by decide) (by decide)⟩

/-! ### Claim C10: the truthiness quirk of the ancestor walk -/

theorem nodeTruthy_eq_false (a : Arena) (i : Nat) (h : childrenOf a i = []) :
    nodeTruthy a (some i) = false := by
  unfold nodeTruthy
  unfold childrenOf at h
  cases ha : a[i]? with
  | none => simp [ha]
  | some n =>
    simp only [ha] at h
    simp [ha, h]

/-- C10: for any node with an empty `children` list, `ancestors` returns
`[]` immediately — whatever the node's depth and whatever the global
`node` binding — because the `while node_:` condition tests the starting
node's truthiness, which `Node.__len__` defines as having children. -/
theorem claim_C10_leaf_ancestors_empty (a : Arena) (g : Option Nat) (i : Nat)
    (fuel : Nat) (h : childrenOf a i = []) :
    ancestors a g i (fuel + 1) = some (Except.ok []) := by
  unfold ancestors ancestorsFuel
  rw [nodeTruthy_eq_false a i h]
  simp

/-- Witness for C10: node index 7 (id 8) is a leaf at depth 3, and its
`ancestors` run returns the empty list. -/
theorem claim_C10_witness :
    childrenOf sampleTree 7 = [] ∧
      ancestors sampleTree none 7 (99 + 1) = some (Except.ok []) :=
  ⟨by decide, claim_C10_leaf_ancestors_empty sampleTree none 7 99 (by decide)⟩

/-! ### Concrete evaluations of the buggy behaviors (claims C1, C3, C4,
C6, C7, C8)

The sample tree is well formed, yet: a full enumeration of
`descendants` empties the `children` lists of the interior nodes it
descends into (it pushes the `child.children` list objects themselves and
pops from them); `ancestors` on any node that has children executes
`parents.insert(0, node)` where `node` is an unbound module global, so in
the library (import) context it raises `NameError`; `root` inherits that
error and returns `[]` (not a node) for leaves. -/

/-- C1: enumerating `descendants(node id 1)` empties the `children` of
node index 2 (id 3) and node index 4 (id 5): the traversal mutates the
tree. -/
theorem claim_C1_descendants_mutate :
    childrenOf sampleTree 2 = [4] ∧ childrenOf sampleTree 4 = [7, 8] ∧
    (descendantsRun sampleTree 0 100).map (fun r => childrenOf r.1 2) = some [] ∧
    (descendantsRun sampleTree 0 100).map (fun r => childrenOf r.1 4) = some [] := by
  decide

/-- C3: `ancestors(node id 5)` (a node at depth 2 with children) does not
return its two proper ancestors: in the import context it raises
`NameError` (the loop body reads the unbound global `node`). -/
theorem claim_C3_ancestors_broken :
    ancestors sampleTree none 4 100 = some (Except.error "NameError") ∧
    some (Except.error "NameError") ≠ some (Except.ok [0, 2]) := by
  constructor
  · rfl
  · intro h
    exact Except.noConfusion (Option.some.inj h)

/-- C4: a traversal on the well-formed sample tree does raise:
`ancestors(node id 1)` hits the unbound global `node` and errors. -/
theorem claim_C4_traversal_raises :
    ancestors sampleTree none 0 100 = some (Except.error "NameError") := by
  rfl

/-- C6: enumerating `descendants(node id 1)` twice gives `[2, 4, 7, 8]`
then `[2]` (indices): the first run emptied the interior `children`
lists, so the second run sees a pruned tree — not the same set. -/
theorem claim_C6_descendants_not_restartable :
    (descendantsRun sampleTree 0 100).map Prod.snd = some [2, 4, 7, 8] ∧
    (descendantsRun sampleTree 0 100).bind
      (fun r => (descendantsRun r.1 0 100).map Prod.snd) = some [2] ∧
    (4 : Nat) ∈ [2, 4, 7, 8] ∧ (4 : Nat) ∉ ([2] : List Nat) := by
  decide

/-- C7: node index 0 (id 1) is a root, yet `root` on it does not return
the empty indicator: it propagates the `NameError` from `ancestors`
(which runs its loop because the root has children). -/
theorem claim_C7_root_broken :
    childrenOf sampleTree 0 ≠ [] ∧
      rootFuel sampleTree none 100 0 = some (Except.error "NameError") := by
  constructor
  · decide
  · rfl

/-- C8: on the sample, `root(node id 8)` returns the literal `[]`, not
node id 1 (index 0), because node 8 is a leaf so `ancestors` returns
`[]`; and `ancestors(node id 5)` errors instead of producing
`[node 1, node 3]` (indices `[0, 2]`). -/
theorem claim_C8_sample_values_wrong :
    rootFuel sampleTree none 100 7 = some (Except.ok RootResult.emptyList) ∧
    RootResult.emptyList ≠ RootResult.node 0 ∧
    ancestorsFuel sampleTree none 50 (some 4) [] = some (Except.error "NameError") := by
  refine ⟨by rfl, by decide, by rfl⟩

/-! ### Claim C5: completeness of a full `descendants` enumeration

The statement quantifies over well-formed finite acyclic trees: every
child index in range (`ValidB`), every index occurring at most once in
all `children` lists together (`OccB` — each node has at most one parent
edge), and a rank function decreasing along child edges (`RankedB` — the
acyclicity witness).  The constructed sample tree satisfies all three. -/

/-- One `children` edge. -/
def childStepR (a : Arena) (i j : Nat) : Prop := j ∈ childrenOf a i

/-- `j` is a proper descendant of `i`: reachable by one or more
`children` edges. -/
def Reach (a : Arena) (i j : Nat) : Prop :=
  Relation.TransGen (childStepR a) i j

/-- Total number of occurrences of `j` in all `children` lists. -/
def totalCount (a : Arena) (j : Nat) : Nat :=
  ((List.range a.length).map (fun i => (childrenOf a i).count j)).sum

/-- Every child index is in range. -/
def ValidB (a : Arena) : Prop :=
  ∀ i, i < a.length → ∀ j ∈ childrenOf a i, j < a.length

/-- Every index occurs at most once among all `children` lists. -/
def OccB (a : Arena) : Prop :=
  ∀ j, j < a.length → totalCount a j ≤ 1

/-- `rank` strictly decreases along child edges (acyclicity witness). -/
def RankedB (a : Arena) (rank : Nat → Nat) : Prop :=
  ∀ i, i < a.length → ∀ j ∈ childrenOf a i, rank j < rank i

theorem mem_childrenOf_lt (a : Arena) (i j : Nat) (h : j ∈ childrenOf a i) :
    i < a.length := by
  unfold childrenOf at h
  cases ha : a[i]? with
  | none => rw [ha] at h; cases h
  | some n => exact (List.getElem?_eq_some.mp ha).1

theorem valid_child (a : Arena) (hv : ValidB a) {i j : Nat}
    (h : j ∈ childrenOf a i) : j < a.length :=
  hv i (mem_childrenOf_lt a i j h) j h

theorem ranked_child (a : Arena) (rank : Nat → Nat) (hr : RankedB a rank)
    {i j : Nat} (h : j ∈ childrenOf a i) : rank j < rank i :=
  hr i (mem_childrenOf_lt a i j h) j h

theorem rank_lt_of_reach (a : Arena) (rank : Nat → Nat) (hr : RankedB a rank)
    {i j : Nat} (h : Reach a i j) : rank j < rank i := by
  induction h with
  | single hs => exact ranked_child a rank hr hs
  | tail _ hs ih => exact lt_trans (ranked_child a rank hr hs) ih

theorem not_reach_self (a : Arena) (rank : Nat → Nat) (hr : RankedB a rank)
    (i : Nat) : ¬ Reach a i i :=
  fun h => lt_irrefl _ (rank_lt_of_reach a rank hr h)

theorem le_sum_of_mem (f : Nat → Nat) (t : List Nat) (x : Nat) (hx : x ∈ t) :
    f x ≤ (t.map f).sum := by
  induction t with
  | nil => cases hx
  | cons h t ih =>
    rw [List.map_cons, List.sum_cons]
    rcases List.mem_cons.mp hx with h1 | h1
    · subst h1
      omega
    · have := ih h1
      omega

theorem sum_two_le (f : Nat → Nat) (l : List Nat) (hl : l.Nodup) (z c : Nat)
    (hz : z ∈ l) (hc : c ∈ l) (hne : z ≠ c) : f z + f c ≤ (l.map f).sum := by
  induction l with
  | nil => cases hz
  | cons h t ih =>
    rw [List.map_cons, List.sum_cons]
    have hnd := List.nodup_cons.mp hl
    rcases List.mem_cons.mp hz with hzh | hzt
    · subst hzh
      have hct : c ∈ t := by
        rcases List.mem_cons.mp hc with h1 | h1
        · exact absurd h1.symm hne
        · exact h1
      have := le_sum_of_mem f t c hct
      omega
    · rcases List.mem_cons.mp hc with hch | hct
      · subst hch
        have := le_sum_of_mem f t z hzt
        omega
      · have := ih hnd.2 hzt hct
        omega

theorem count_pos_of_mem (l : List Nat) (x : Nat) (h : x ∈ l) : 1 ≤ l.count x :=
  List.one_le_count_iff.mpr h

/-- With at most one occurrence of `x` overall, `x` cannot sit in the
`children` lists of two distinct nodes. -/
theorem occ_unique_parent (a : Arena) (ho : OccB a) (hv : ValidB a)
    {x z c : Nat} (hz : x ∈ childrenOf a z) (hc : x ∈ childrenOf a c)
    (hne : z ≠ c) : False := by
  have hzlen : z < a.length := mem_childrenOf_lt a z x hz
  have hclen : c < a.length := mem_childrenOf_lt a c x hc
  have hxlen : x < a.length := valid_child a hv hz
  have h2 := sum_two_le (fun i => (childrenOf a i).count x) (List.range a.length)
    (List.nodup_range a.length) z c (List.mem_range.mpr hzlen)
    (List.mem_range.mpr hclen) hne
  have htc : ((List.range a.length).map (fun i => (childrenOf a i).count x)).sum =
      totalCount a x := rfl
  rw [htc] at h2
  have hz1 := count_pos_of_mem _ _ hz
  have hc1 := count_pos_of_mem _ _ hc
  have := ho x hxlen
  simp only at h2
  omega

/-- A node whose `children` list may have lost elements; all other fields
intact. -/
def NodeShrunk (n n' : Node) : Prop :=
  n'.id = n.id ∧ n'.title = n.title ∧ n'.parentId = n.parentId ∧
  n'.parent = n.parent ∧ List.Sublist n'.children n.children

/-- The arena after some `children` lists were partially consumed. -/
structure Shrunk (a a' : Arena) : Prop where
  len : a'.length = a.length
  node : ∀ (k : Nat) (n : Node), a[k]? = some n →
    ∃ n', a'[k]? = some n' ∧ NodeShrunk n n'

theorem shrunk_refl (a : Arena) : Shrunk a a :=
  ⟨rfl, fun _ n h => ⟨n, h, rfl, rfl, rfl, rfl, List.Sublist.refl _⟩⟩

theorem shrunk_trans {a a' a'' : Arena} (h1 : Shrunk a a') (h2 : Shrunk a' a'') :
    Shrunk a a'' := by
  refine ⟨h2.len.trans h1.len, fun k n hk => ?_⟩
  obtain ⟨n', hk', e1, e2, e3, e4, s1⟩ := h1.node k n hk
  obtain ⟨n'', hk'', f1, f2, f3, f4, s2⟩ := h2.node k n' hk'
  exact ⟨n'', hk'', f1.trans e1, f2.trans e2, f3.trans e3, f4.trans e4, s2.trans s1⟩

theorem shrunk_childrenOf {a a' : Arena} (h : Shrunk a a') (k : Nat) :
    List.Sublist (childrenOf a' k) (childrenOf a k) := by
  unfold childrenOf
  cases hk : a[k]? with
  | none =>
    have hk' : a'[k]? = none := by
      apply List.getElem?_eq_none
      rw [h.len]
      exact List.getElem?_eq_none_iff.mp hk
    rw [hk']
  | some n =>
    obtain ⟨n', hk', _, _, _, _, s⟩ := h.node k n hk
    rw [hk']
    exact s

theorem shrunk_valid {a a' : Arena} (h : Shrunk a a') (hv : ValidB a) :
    ValidB a' := by
  intro i hi j hj
  rw [h.len] at hi ⊢
  exact hv i hi j ((shrunk_childrenOf h i).subset hj)

theorem shrunk_ranked {a a' : Arena} (rank : Nat → Nat) (h : Shrunk a a')
    (hr : RankedB a rank) : RankedB a' rank := by
  intro i hi j hj
  rw [h.len] at hi
  exact hr i hi j ((shrunk_childrenOf h i).subset hj)

theorem shrunk_occ {a a' : Arena} (h : Shrunk a a') (ho : OccB a) : OccB a' := by
  intro j hj
  rw [h.len] at hj
  have hle : totalCount a' j ≤ totalCount a j := by
    unfold totalCount
    rw [h.len]
    apply List.sum_le_sum
    intro i _
    exact List.Sublist.count_le (shrunk_childrenOf h i) j
  exact hle.trans (ho j hj)

/-- Clear a node's `children` list. -/
def clearKids (n : Node) : Node :=
  { n with children := [] }

/-- `a'` agrees with `a` except that every slot in `S` has its `children`
list emptied. -/
structure Emptied (a a' : Arena) (S : Nat → Prop) : Prop where
  len : a'.length = a.length
  mem : ∀ k : Nat, S k → a'[k]? = (a[k]?).map clearKids
  not_mem : ∀ k : Nat, ¬ S k → a'[k]? = a[k]?

theorem emptied_shrunk {a a' : Arena} {S : Nat → Prop} (h : Emptied a a' S) :
    Shrunk a a' := by
  refine ⟨h.len, fun k n hk => ?_⟩
  by_cases hs : S k
  · refine ⟨clearKids n, ?_, rfl, rfl, rfl, rfl, List.nil_sublist _⟩
    rw [h.mem k hs, hk]
    rfl
  · exact ⟨n, by rw [h.not_mem k hs, hk], rfl, rfl, rfl, rfl, List.Sublist.refl _⟩

theorem emptied_childrenOf_mem {a a' : Arena} {S : Nat → Prop}
    (h : Emptied a a' S) (k : Nat) (hk : S k) : childrenOf a' k = [] := by
  unfold childrenOf
  rw [h.mem k hk]
  cases a[k]? <;> rfl

theorem emptied_childrenOf_not_mem {a a' : Arena} {S : Nat → Prop}
    (h : Emptied a a' S) (k : Nat) (hk : ¬ S k) :
    childrenOf a' k = childrenOf a k := by
  unfold childrenOf
  rw [h.not_mem k hk]

theorem setKids_get? (a : Arena) (j : Nat) (l : List Nat) (k : Nat) :
    (setKids a j l)[k]? = (a[k]?).map (fun n =>
      if k = j then { n with children := l } else n) := by
  unfold setKids
  cases hja : a[j]? with
  | none =>
    by_cases hk : k = j
    · subst hk
      rw [hja]
      rfl
    · cases a[k]? with
      | none => rfl
      | some nk => simp [hk]
  | some nj =>
    have hj : j < a.length := (List.getElem?_eq_some.mp hja).1
    rw [List.getElem?_set]
    by_cases hk : j = k
    · subst hk
      rw [if_pos rfl, if_pos hj, hja]
      simp
    · rw [if_neg hk]
      cases a[k]? with
      | none => rfl
      | some nk => simp [Ne.symm hk]

theorem setKids_length (a : Arena) (j : Nat) (l : List Nat) :
    (setKids a j l).length = a.length := by
  unfold setKids
  cases a[j]? with
  | none => rfl
  | some n => simp

theorem childrenOf_setKids_self (a : Arena) (j : Nat) (l : List Nat)
    (hj : j < a.length) : childrenOf (setKids a j l) j = l := by
  unfold childrenOf
  rw [setKids_get?, List.getElem?_eq_getElem hj]
  simp

theorem childrenOf_setKids_ne (a : Arena) (j : Nat) (l : List Nat) (k : Nat)
    (hk : k ≠ j) : childrenOf (setKids a j l) k = childrenOf a k := by
  unfold childrenOf
  rw [setKids_get?]
  cases a[k]? with
  | none => rfl
  | some n => simp [hk]

/-- Head decomposition of reachability. -/
theorem reach_iff (a : Arena) (i j : Nat) :
    Reach a i j ↔ j ∈ childrenOf a i ∨ ∃ x ∈ childrenOf a i, Reach a x j := by
  unfold Reach
  rw [Relation.TransGen.head'_iff]
  constructor
  · rintro ⟨b, hb, hbj⟩
    rcases Relation.reflTransGen_iff_eq_or_transGen.mp hbj with rfl | ht
    · exact Or.inl hb
    · exact Or.inr ⟨b, hb, ht⟩
  · rintro (hj | ⟨x, hx, hxj⟩)
    · exact ⟨j, hj, Relation.ReflTransGen.refl⟩
    · exact ⟨x, hx, hxj.to_reflTransGen⟩

/-- Reachability only shrinks when edges are removed. -/
theorem reach_mono {a a' : Arena} (hsub : ∀ k, (childrenOf a' k) ⊆ childrenOf a k)
    {x j : Nat} (h : Reach a' x j) : Reach a x j := by
  induction h with
  | single hs => exact Relation.TransGen.single (hsub _ hs)
  | tail _ hs ih => exact Relation.TransGen.tail ih (hsub _ hs)

/-- Reachability from `x` is unchanged if the `children` lists of `x` and
everything it reaches are unchanged. -/
theorem reach_congr {a a' : Arena} {x : Nat}
    (h : ∀ k, k = x ∨ Reach a x k → childrenOf a' k = childrenOf a k) :
    ∀ j, Reach a x j → Reach a' x j := by
  intro j hj
  induction hj with
  | single hs =>
    apply Relation.TransGen.single
    show _ ∈ childrenOf a' x
    rw [h x (Or.inl rfl)]
    exact hs
  | @tail b c hxb hs ih =>
    apply Relation.TransGen.tail ih
    show _ ∈ childrenOf a' b
    rw [h b (Or.inr hxb)]
    exact hs

/-- Reflexive-transitive reachability along `children` edges. -/
def ReachR (a : Arena) (i j : Nat) : Prop :=
  Relation.ReflTransGen (childStepR a) i j

theorem reachR_iff (a : Arena) (i j : Nat) :
    ReachR a i j ↔ j = i ∨ Reach a i j :=
  Relation.reflTransGen_iff_eq_or_transGen

/-- A node is never inside the subtree of one of its own children. -/
theorem parent_not_in_ext (a : Arena) (rank : Nat → Nat) (hr : RankedB a rank)
    {c x : Nat} (hx : x ∈ childrenOf a c) : ¬ (c = x ∨ Reach a x c) := by
  rintro (rfl | h)
  · exact absurd (ranked_child a rank hr hx) (lt_irrefl _)
  · have h1 := rank_lt_of_reach a rank hr h
    have h2 := ranked_child a rank hr hx
    omega

/-- Subtrees hanging from two distinct children of the same node are
disjoint: each index has at most one parent edge and rank forbids
cycles. -/
theorem ext_disjoint (a : Arena) (rank : Nat → Nat) (hr : RankedB a rank)
    (ho : OccB a) (hv : ValidB a) {c x y : Nat}
    (hx : x ∈ childrenOf a c) (hy : y ∈ childrenOf a c) (hxy : x ≠ y)
    {d : Nat} (hdx : ReachR a x d) : ¬ ReachR a y d := by
  induction hdx with
  | refl =>
    intro hdy
    rcases Relation.ReflTransGen.cases_tail hdy with heq | ⟨w, hyw, hwx⟩
    · exact hxy heq
    · by_cases hwc : w = c
      · subst hwc
        rcases (reachR_iff a y w).mp hyw with heq2 | ht
        · exact absurd (ranked_child a rank hr (heq2 ▸ hy)) (lt_irrefl _)
        · exact not_reach_self a rank hr w (Relation.TransGen.head hy ht)
      · exact occ_unique_parent a ho hv hwx hx hwc
  | @tail z d hxz hzd ih =>
    intro hdy
    rcases Relation.ReflTransGen.cases_tail hdy with heq | ⟨w, hyw, hwd⟩
    · subst heq
      by_cases hzc : z = c
      · subst hzc
        rcases (reachR_iff a x z).mp hxz with heq2 | ht
        · exact absurd (ranked_child a rank hr (heq2 ▸ hx)) (lt_irrefl _)
        · exact not_reach_self a rank hr z (Relation.TransGen.head hx ht)
      · exact occ_unique_parent a ho hv hzd hy hzc
    · by_cases hwz : w = z
      · subst hwz
        exact ih hyw
      · exact occ_unique_parent a ho hv hwd hzd hwz

/-- `ext_disjoint` phrased with `=`/`Reach` disjunctions. -/
theorem ext_disjoint' (a : Arena) (rank : Nat → Nat) (hr : RankedB a rank)
    (ho : OccB a) (hv : ValidB a) {c x y : Nat}
    (hx : x ∈ childrenOf a c) (hy : y ∈ childrenOf a c) (hxy : x ≠ y)
    {d : Nat} (hdx : d = x ∨ Reach a x d) (hdy : d = y ∨ Reach a y d) : False :=
  ext_disjoint a rank hr ho hv hx hy hxy
    ((reachR_iff a x d).mpr hdx) ((reachR_iff a y d).mpr hdy)

theorem descStep_nil (a : Arena) : descStep a [] = none := rfl

/-- One-step unfolding of `descStep` on a nonempty stack. -/
theorem descStep_cons (a : Arena) (e : StackEntry) (rest : List StackEntry) :
    descStep a (e :: rest) =
      match entryList a e with
      | [] => some (a, rest, none)
      | c :: tl =>
        let p : Arena × StackEntry :=
          match e with
          | .copy _ => (a, StackEntry.copy tl)
          | .shared j => (setKids a j tl, StackEntry.shared j)
        if childrenOf p.1 c ≠ [] then
          some (p.1, StackEntry.shared c :: p.2 :: rest, some c)
        else
          some (p.1, p.2 :: rest, some c) := rfl

theorem descStep_cons_empty (a : Arena) (e : StackEntry) (rest : List StackEntry)
    (h : entryList a e = []) : descStep a (e :: rest) = some (a, rest, none) := by
  rw [descStep_cons, h]

theorem descStep_copy_cons (a : Arena) (c : Nat) (tl : List Nat)
    (rest : List StackEntry) :
    descStep a (StackEntry.copy (c :: tl) :: rest) =
      if childrenOf a c ≠ [] then
        some (a, StackEntry.shared c :: StackEntry.copy tl :: rest, some c)
      else
        some (a, StackEntry.copy tl :: rest, some c) := rfl

theorem descStep_shared_cons (a : Arena) (j c : Nat) (tl : List Nat)
    (rest : List StackEntry) (h : childrenOf a j = c :: tl) :
    descStep a (StackEntry.shared j :: rest) =
      if childrenOf (setKids a j tl) c ≠ [] then
        some (setKids a j tl, StackEntry.shared c :: StackEntry.shared j :: rest, some c)
      else
        some (setKids a j tl, StackEntry.shared j :: rest, some c) := by
  rw [descStep_cons]
  have he : entryList a (StackEntry.shared j) = c :: tl := h
  rw [he]

theorem descStep_cons_ne_none (a : Arena) (e : StackEntry)
    (rest : List StackEntry) : descStep a (e :: rest) ≠ none := by
  cases hL : entryList a e with
  | nil =>
    rw [descStep_cons_empty a e rest hL]
    simp
  | cons c tl =>
    cases e with
    | copy l =>
      have hl : l = c :: tl := hL
      subst hl
      rw [descStep_copy_cons]
      split <;> simp
    | shared j =>
      rw [descStep_shared_cons a j c tl rest hL]
      split <;> simp

theorem descRun_out (fuel : Nat) : ∀ (a : Arena) (st : List StackEntry)
    (out : List Nat),
    descRun fuel a st out = (descRun fuel a st []).map (fun r => (r.1, out ++ r.2)) := by
  induction fuel with
  | zero => intros; rfl
  | succ fuel ih =>
    intro a st out
    unfold descRun
    cases h : descStep a st with
    | none => simp
    | some x =>
      obtain ⟨a', st', y?⟩ := x
      simp only
      rw [ih a' st' (out ++ y?.toList), ih a' st' ([] ++ y?.toList)]
      cases descRun fuel a' st' [] with
      | none => rfl
      | some r => simp

theorem descRun_mono (k fuel : Nat) : ∀ (a : Arena) (st : List StackEntry)
    (out : List Nat) (r : Arena × List Nat),
    descRun fuel a st out = some r → descRun (fuel + k) a st out = some r := by
  induction fuel with
  | zero =>
    intro a st out r h
    cases h
  | succ fuel ih =>
    intro a st out r h
    have he : fuel + 1 + k = (fuel + k) + 1 := by omega
    rw [he]
    unfold descRun at h ⊢
    cases hs : descStep a st with
    | none =>
      rw [hs] at h
      exact h
    | some x =>
      obtain ⟨a', st', y?⟩ := x
      rw [hs] at h
      exact ih a' st' _ r h

/-- Stepping ignores everything below the top of the stack. -/
theorem descRun_succ (fuel : Nat) (a : Arena) (st : List StackEntry)
    (out : List Nat) :
    descRun (fuel + 1) a st out =
      match descStep a st with
      | none => some (a, out)
      | some (a', st', y?) => descRun fuel a' st' (out ++ y?.toList) := rfl

theorem descStep_append (a : Arena) (e : StackEntry) (rest st2 : List StackEntry) :
    descStep a (e :: rest ++ st2) =
      (descStep a (e :: rest)).map (fun r => (r.1, r.2.1 ++ st2, r.2.2)) := by
  show descStep a (e :: (rest ++ st2)) = _
  rw [descStep_cons a e (rest ++ st2), descStep_cons a e rest]
  cases hL : entryList a e with
  | nil => rfl
  | cons c tl =>
    cases e with
    | copy l =>
      simp only
      split <;> rename_i h <;> simp [h]
    | shared j =>
      simp only
      split <;> rename_i h <;> simp [h]

/-- Running a stack `st1 ++ st2` first drains `st1`, then continues with
`st2` from the mutated arena. -/
theorem descRun_append (g : Nat) : ∀ (f : Nat) (a : Arena)
    (st1 st2 : List StackEntry) (a1 : Arena) (ys1 : List Nat)
    (r : Arena × List Nat),
    descRun f a st1 [] = some (a1, ys1) →
    descRun g a1 st2 [] = some r →
    descRun (f + g) a (st1 ++ st2) [] = some (r.1, ys1 ++ r.2) := by
  intro f
  induction f with
  | zero =>
    intro a st1 st2 a1 ys1 r h1 h2
    cases h1
  | succ f ih =>
    intro a st1 st2 a1 ys1 r h1 h2
    cases st1 with
    | nil =>
      rw [show descRun (f+1) a [] [] = some (a, []) from by
        rw [descRun_succ, descStep_nil]] at h1
      have h1' := Option.some.inj h1
      have ha : a = a1 := congrArg Prod.fst h1'
      have hy : ys1 = [] := (congrArg Prod.snd h1').symm
      subst ha
      subst hy
      have hm := descRun_mono (f+1) g a st2 [] r h2
      rw [show f + 1 + g = g + (f+1) from by omega]
      simpa using hm
    | cons e rest =>
      have hne := descStep_cons_ne_none a e rest
      cases hs : descStep a (e :: rest) with
      | none => exact absurd hs hne
      | some x =>
        obtain ⟨a', st', y?⟩ := x
        have hstep : descRun (f+1) a (e :: rest) [] = descRun f a' st' y?.toList := by
          rw [descRun_succ, hs]
          rfl
        rw [hstep, descRun_out] at h1
        cases hr1 : descRun f a' st' [] with
        | none =>
          rw [hr1] at h1
          cases h1
        | some q =>
          obtain ⟨aq, ysq⟩ := q
          rw [hr1] at h1
          have h1' := Option.some.inj h1
          have ha : aq = a1 := congrArg Prod.fst h1'
          have hy : ys1 = y?.toList ++ ysq := (congrArg Prod.snd h1').symm
          subst ha
          have hstep2 : descRun (f+1+g) a ((e :: rest) ++ st2) [] =
              descRun (f+g) a' (st' ++ st2) y?.toList := by
            rw [show f+1+g = (f+g)+1 from by omega, descRun_succ,
              descStep_append, hs]
            simp only [Option.map_some']
            rfl
          rw [hstep2, descRun_out, ih a' st' st2 aq ysq r hr1 h2]
          simp [hy, List.append_assoc]

theorem setKids_get?_ne (a : Arena) (c : Nat) (l : List Nat) (k : Nat)
    (h : k ≠ c) : (setKids a c l)[k]? = a[k]? := by
  rw [setKids_get?]
  cases a[k]? with
  | none => rfl
  | some n => simp [h]

theorem setKids_shrunk (a : Arena) (c : Nat) (tl : List Nat)
    (hsub : List.Sublist tl (childrenOf a c)) : Shrunk a (setKids a c tl) := by
  refine ⟨setKids_length a c tl, fun k n hk => ?_⟩
  rw [setKids_get?, hk]
  by_cases hkc : k = c
  · subst hkc
    refine ⟨{ n with children := tl }, by simp, rfl, rfl, rfl, rfl, ?_⟩
    have : childrenOf a k = n.children := by
      unfold childrenOf
      rw [hk]
    rw [← this]
    exact hsub
  · exact ⟨n, by simp [hkc], rfl, rfl, rfl, rfl, List.Sublist.refl _⟩

theorem childrenOf_nodup (a : Arena) (ho : OccB a) (hv : ValidB a) (c : Nat) :
    (childrenOf a c).Nodup := by
  rw [List.nodup_iff_count_le_one]
  intro j
  by_cases hj : j ∈ childrenOf a c
  · have hjlen : j < a.length := valid_child a hv hj
    have hclen : c < a.length := mem_childrenOf_lt a c j hj
    have h1 : (childrenOf a c).count j ≤ totalCount a j :=
      le_sum_of_mem (fun i => (childrenOf a i).count j) (List.range a.length) c
        (List.mem_range.mpr hclen)
    exact h1.trans (ho j hjlen)
  · rw [List.count_eq_zero_of_not_mem hj]
    omega

theorem shrunk_children_subset {a a' : Arena} (h : Shrunk a a') (k : Nat) :
    childrenOf a' k ⊆ childrenOf a k :=
  (shrunk_childrenOf h k).subset

theorem reach_iff_of_agree {a a' : Arena} {x : Nat}
    (hsub : ∀ k, childrenOf a' k ⊆ childrenOf a k)
    (hagree : ∀ k, (k = x ∨ Reach a x k) → childrenOf a' k = childrenOf a k) :
    ∀ j, Reach a' x j ↔ Reach a x j :=
  fun j => ⟨reach_mono hsub, reach_congr hagree j⟩

theorem clearKids_of_empty (n : Node) (h : n.children = []) : clearKids n = n := by
  unfold clearKids
  rw [← h]

theorem map_clearKids_of_empty (a : Arena) (k : Nat) (h : childrenOf a k = []) :
    (a[k]?).map clearKids = a[k]? := by
  unfold childrenOf at h
  cases hk : a[k]? with
  | none => rfl
  | some n =>
    simp only [hk] at h
    rw [Option.map_some', clearKids_of_empty n h]

/-- Draining a pushed `child.children` entry: the run terminates, yields
exactly the proper descendants of `c` (in the arena at the start of the
drain), each once, and empties the `children` of `c` and of everything
below it, touching nothing else. -/
theorem sharedDrain (rank : Nat → Nat) :
    ∀ (r : Nat) (L : List Nat) (a : Arena) (c : Nat),
      RankedB a rank → OccB a → ValidB a → c < a.length → rank c < r →
      childrenOf a c = L →
      ∃ (f : Nat) (a' : Arena) (ys : List Nat),
        descRun f a [StackEntry.shared c] [] = some (a', ys) ∧
        (∀ j, j ∈ ys ↔ Reach a c j) ∧ ys.Nodup ∧
        Emptied a a' (fun k => k = c ∨ Reach a c k) := by
  intro r
  induction r with
  | zero =>
    intro L a c _ _ _ _ hrc _
    omega
  | succ r ihr =>
    intro L
    induction L with
    | nil =>
      intro a c hra hoa hva hc hrc hL
      have hnoreach : ∀ j, ¬ Reach a c j := by
        intro j h
        rcases (reach_iff a c j).mp h with h1 | ⟨x, hx, _⟩
        · rw [hL] at h1
          cases h1
        · rw [hL] at hx
          cases hx
      refine ⟨2, a, [], ?_, ?_, List.nodup_nil, ?_⟩
      · rw [descRun_succ,
          descStep_cons_empty a (StackEntry.shared c) []
            (show entryList a (StackEntry.shared c) = [] from hL)]
        rfl
      · intro j
        simp only [List.not_mem_nil, false_iff]
        exact hnoreach j
      · refine ⟨rfl, fun k hk => ?_, fun k _ => rfl⟩
        rcases hk with rfl | hre
        · exact (map_clearKids_of_empty a k hL).symm
        · exact absurd hre (hnoreach _)
    | cons x0 tl ihl =>
      intro a c hra hoa hva hc hrc hL
      have hmemx0 : x0 ∈ childrenOf a c := by
        rw [hL]
        exact List.mem_cons_self x0 tl
      have hndc : (childrenOf a c).Nodup := childrenOf_nodup a hoa hva c
      have hx0tl : x0 ∉ tl := by
        rw [hL] at hndc
        exact (List.nodup_cons.mp hndc).1
      have htl : ∀ x ∈ tl, x ∈ childrenOf a c := by
        intro x hx
        rw [hL]
        exact List.mem_cons_of_mem x0 hx
      have hne_x0 : ∀ x ∈ tl, x0 ≠ x := by
        intro x hx he
        subst he
        exact hx0tl hx
      have hx0len : x0 < a.length := valid_child a hva hmemx0
      have hx0c : x0 ≠ c := by
        intro h
        subst h
        exact absurd (ranked_child a rank hra hmemx0) (lt_irrefl _)
      have hrx0 : rank x0 < rank c := ranked_child a rank hra hmemx0
      have hsub1 : List.Sublist tl (childrenOf a c) := by
        rw [hL]
        exact List.sublist_cons_self x0 tl
      have hsh1 : Shrunk a (setKids a c tl) := setKids_shrunk a c tl hsub1
      have hlen1 : (setKids a c tl).length = a.length := setKids_length a c tl
      have hch1c : childrenOf (setKids a c tl) c = tl := childrenOf_setKids_self a c tl hc
      have hch1ne : ∀ k, k ≠ c → childrenOf (setKids a c tl) k = childrenOf a k :=
        fun k hk => childrenOf_setKids_ne a c tl k hk
      have hagree1 : ∀ k, (k = x0 ∨ Reach a x0 k) →
          childrenOf (setKids a c tl) k = childrenOf a k := by
        intro k hk
        apply hch1ne
        intro hkc
        subst hkc
        exact parent_not_in_ext a rank hra hmemx0 hk
      have hreach1x0 : ∀ j, Reach (setKids a c tl) x0 j ↔ Reach a x0 j :=
        reach_iff_of_agree (shrunk_children_subset hsh1) hagree1
      have hagreetl : ∀ x, x ∈ tl → ∀ k, (k = x ∨ Reach a x k) →
          childrenOf (setKids a c tl) k = childrenOf a k := by
        intro x hx k hk
        apply hch1ne
        intro hkc
        subst hkc
        exact parent_not_in_ext a rank hra (htl x hx) hk
      have hreachtl : ∀ x ∈ tl, ∀ j, Reach (setKids a c tl) x j ↔ Reach a x j :=
        fun x hx => reach_iff_of_agree (shrunk_children_subset hsh1) (hagreetl x hx)
      have hstep := descStep_shared_cons a c x0 tl ([] : List StackEntry) hL
      by_cases hK : childrenOf (setKids a c tl) x0 = []
      · -- the popped child x0 is a leaf: nothing is pushed
        have hstepB : descStep a [StackEntry.shared c] =
            some (setKids a c tl, [StackEntry.shared c], some x0) := by
          rw [hstep, if_neg (by simpa using hK)]
        have hchx0 : childrenOf a x0 = [] := by
          rw [← hch1ne x0 hx0c]
          exact hK
        have hnoreach : ∀ j, ¬ Reach a x0 j := by
          intro j h
          rcases (reach_iff a x0 j).mp h with h1 | ⟨x, hx, _⟩
          · rw [hchx0] at h1
            cases h1
          · rw [hchx0] at hx
            cases hx
        obtain ⟨f2, a3, ys1, hrun2, hmem1, hnd1, hemp1⟩ :=
          ihl (setKids a c tl) c (shrunk_ranked rank hsh1 hra) (shrunk_occ hsh1 hoa)
            (shrunk_valid hsh1 hva) (by rw [hlen1]; exact hc) hrc hch1c
        have hmem1' : ∀ j, j ∈ ys1 ↔ (j ∈ tl ∨ ∃ x ∈ tl, Reach a x j) := by
          intro j
          rw [hmem1 j, reach_iff _ c j, hch1c]
          constructor
          · rintro (h | ⟨x, hx, h2⟩)
            · exact Or.inl h
            · exact Or.inr ⟨x, hx, (hreachtl x hx j).mp h2⟩
          · rintro (h | ⟨x, hx, h2⟩)
            · exact Or.inl h
            · exact Or.inr ⟨x, hx, (hreachtl x hx j).mpr h2⟩
        refine ⟨f2 + 1, a3, x0 :: ys1, ?_, ?_, ?_, ?_⟩
        · rw [descRun_succ, hstepB]
          show descRun f2 (setKids a c tl) [StackEntry.shared c] [x0] =
            some (a3, x0 :: ys1)
          rw [descRun_out, hrun2]
          rfl
        · intro j
          rw [reach_iff a c j, hL]
          constructor
          · intro hj
            rcases List.mem_cons.mp hj with h0 | h1
            · rw [h0]
              exact Or.inl (List.mem_cons_self x0 tl)
            · rcases (hmem1' j).mp h1 with h2 | ⟨x, hx, h3⟩
              · exact Or.inl (List.mem_cons_of_mem x0 h2)
              · exact Or.inr ⟨x, List.mem_cons_of_mem x0 hx, h3⟩
          · intro hj
            rcases hj with h1 | ⟨x, hx, h2⟩
            · rcases List.mem_cons.mp h1 with rfl | h2
              · exact List.mem_cons_self _ _
              · exact List.mem_cons_of_mem _ ((hmem1' j).mpr (Or.inl h2))
            · rcases List.mem_cons.mp hx with rfl | hx'
              · exact absurd h2 (hnoreach j)
              · exact List.mem_cons_of_mem _ ((hmem1' j).mpr (Or.inr ⟨x, hx', h2⟩))
        · refine List.nodup_cons.mpr ⟨?_, hnd1⟩
          intro hx0in
          rcases (hmem1' x0).mp hx0in with h2 | ⟨x, hx, h3⟩
          · exact hx0tl h2
          · exact ext_disjoint' a rank hra hoa hva (htl x hx) hmemx0
              (Ne.symm (hne_x0 x hx)) (Or.inr h3) (Or.inl rfl)
        · have hSdecomp : ∀ k, (k = c ∨ Reach a c k) ↔
              (k = c ∨ k = x0 ∨ (k ∈ tl ∨ ∃ x ∈ tl, Reach a x k)) := by
            intro k
            constructor
            · rintro (rfl | h)
              · exact Or.inl rfl
              · rcases (reach_iff a c k).mp h with h1 | ⟨x, hx, h2⟩
                · rw [hL] at h1
                  rcases List.mem_cons.mp h1 with rfl | h1'
                  · exact Or.inr (Or.inl rfl)
                  · exact Or.inr (Or.inr (Or.inl h1'))
                · rw [hL] at hx
                  rcases List.mem_cons.mp hx with rfl | hx'
                  · exact absurd h2 (hnoreach k)
                  · exact Or.inr (Or.inr (Or.inr ⟨x, hx', h2⟩))
            · rintro (rfl | rfl | h | ⟨x, hx, h2⟩)
              · exact Or.inl rfl
              · exact Or.inr (Relation.TransGen.single hmemx0)
              · exact Or.inr (Relation.TransGen.single (htl _ h))
              · exact Or.inr (Relation.TransGen.head (htl x hx) h2)
          refine ⟨hemp1.len.trans hlen1, ?_, ?_⟩
          · intro k hk
            rcases (hSdecomp k).mp hk with rfl | rfl | hT
            · rw [hemp1.mem k (Or.inl rfl), setKids_get?, Option.map_map]
              cases a[k]? with
              | none => rfl
              | some n => simp [clearKids]
            · have hx0notS2 : ¬ (k = c ∨ Reach (setKids a c tl) c k) := by
                rintro (h | h)
                · exact hx0c h
                · rcases (reach_iff _ c k).mp h with h1 | ⟨x, hx, h2⟩
                  · rw [hch1c] at h1
                    exact hx0tl h1
                  · rw [hch1c] at hx
                    exact ext_disjoint' a rank hra hoa hva (htl x hx) hmemx0
                      (Ne.symm (hne_x0 x hx)) (Or.inr ((hreachtl x hx k).mp h2)) (Or.inl rfl)
              rw [hemp1.not_mem k hx0notS2, setKids_get?_ne a c tl k hx0c,
                map_clearKids_of_empty a k hchx0]
            · have hkc : k ≠ c := by
                rintro rfl
                rcases hT with h | ⟨x, hx, h2⟩
                · exact absurd (ranked_child a rank hra (htl _ h)) (lt_irrefl _)
                · exact parent_not_in_ext a rank hra (htl x hx) (Or.inr h2)
              have hkS2 : Reach (setKids a c tl) c k := by
                apply (reach_iff _ c k).mpr
                rw [hch1c]
                rcases hT with h | ⟨x, hx, h2⟩
                · exact Or.inl h
                · exact Or.inr ⟨x, hx, (hreachtl x hx k).mpr h2⟩
              rw [hemp1.mem k (Or.inr hkS2), setKids_get?_ne a c tl k hkc]
          · intro k hk
            have hkc : k ≠ c := fun h => hk (Or.inl h)
            have hknotS2 : ¬ (k = c ∨ Reach (setKids a c tl) c k) := by
              rintro (h | h)
              · exact hkc h
              · exact hk (Or.inr (reach_mono (shrunk_children_subset hsh1) h))
            rw [hemp1.not_mem k hknotS2, setKids_get?_ne a c tl k hkc]
      · -- the popped child x0 has children: its list is pushed and drained
        have hstepA : descStep a [StackEntry.shared c] =
            some (setKids a c tl,
              [StackEntry.shared x0, StackEntry.shared c], some x0) := by
          rw [hstep, if_pos hK]
        obtain ⟨f1, a2, ys0, hrun1, hmem0, hnd0, hemp0⟩ :=
          ihr (childrenOf (setKids a c tl) x0) (setKids a c tl) x0
            (shrunk_ranked rank hsh1 hra) (shrunk_occ hsh1 hoa)
            (shrunk_valid hsh1 hva) (by rw [hlen1]; exact hx0len) (by omega) rfl
        have hmem0' : ∀ j, j ∈ ys0 ↔ Reach a x0 j := by
          intro j
          rw [hmem0 j, hreach1x0 j]
        have hS1iff : ∀ k, (k = x0 ∨ Reach (setKids a c tl) x0 k) ↔
            (k = x0 ∨ Reach a x0 k) := by
          intro k
          constructor
          · rintro (h | h)
            · exact Or.inl h
            · exact Or.inr ((hreach1x0 k).mp h)
          · rintro (h | h)
            · exact Or.inl h
            · exact Or.inr ((hreach1x0 k).mpr h)
        have hsh2 : Shrunk (setKids a c tl) a2 := emptied_shrunk hemp0
        have hsh12 : Shrunk a a2 := shrunk_trans hsh1 hsh2
        have hcnotS1 : ¬ (c = x0 ∨ Reach (setKids a c tl) x0 c) :=
          fun h => parent_not_in_ext a rank hra hmemx0 ((hS1iff c).mp h)
        have hch2c : childrenOf a2 c = tl := by
          rw [emptied_childrenOf_not_mem hemp0 c hcnotS1, hch1c]
        obtain ⟨f2, a3, ys1, hrun2, hmem1, hnd1, hemp1⟩ :=
          ihl a2 c (shrunk_ranked rank hsh12 hra) (shrunk_occ hsh12 hoa)
            (shrunk_valid hsh12 hva) (by rw [hsh12.len]; exact hc) hrc hch2c
        have hagree2 : ∀ x, x ∈ tl → ∀ k, (k = x ∨ Reach a x k) →
            childrenOf a2 k = childrenOf a k := by
          intro x hx k hk
          have hkc : k ≠ c := by
            rintro rfl
            exact parent_not_in_ext a rank hra (htl x hx) hk
          have hknotS1 : ¬ (k = x0 ∨ Reach (setKids a c tl) x0 k) := by
            rw [hS1iff k]
            intro h1
            exact ext_disjoint' a rank hra hoa hva (htl x hx) hmemx0
              (Ne.symm (hne_x0 x hx)) hk h1
          rw [emptied_childrenOf_not_mem hemp0 k hknotS1, hch1ne k hkc]
        have hreachtl2 : ∀ x ∈ tl, ∀ j, Reach a2 x j ↔ Reach a x j :=
          fun x hx => reach_iff_of_agree (shrunk_children_subset hsh12) (hagree2 x hx)
        have hmem1' : ∀ j, j ∈ ys1 ↔ (j ∈ tl ∨ ∃ x ∈ tl, Reach a x j) := by
          intro j
          rw [hmem1 j, reach_iff a2 c j, hch2c]
          constructor
          · rintro (h | ⟨x, hx, h2⟩)
            · exact Or.inl h
            · exact Or.inr ⟨x, hx, (hreachtl2 x hx j).mp h2⟩
          · rintro (h | ⟨x, hx, h2⟩)
            · exact Or.inl h
            · exact Or.inr ⟨x, hx, (hreachtl2 x hx j).mpr h2⟩
        have hcomp : descRun (f1 + f2) (setKids a c tl)
            [StackEntry.shared x0, StackEntry.shared c] [] =
            some (a3, ys0 ++ ys1) :=
          descRun_append f2 f1 (setKids a c tl) [StackEntry.shared x0]
            [StackEntry.shared c] a2 ys0 (a3, ys1) hrun1 hrun2
        refine ⟨f1 + f2 + 1, a3, x0 :: (ys0 ++ ys1), ?_, ?_, ?_, ?_⟩
        · rw [descRun_succ, hstepA]
          show descRun (f1 + f2) (setKids a c tl)
            [StackEntry.shared x0, StackEntry.shared c] [x0] =
            some (a3, x0 :: (ys0 ++ ys1))
          rw [descRun_out, hcomp]
          rfl
        · intro j
          rw [reach_iff a c j, hL]
          constructor
          · intro hj
            rcases List.mem_cons.mp hj with h0 | h1
            · rw [h0]
              exact Or.inl (List.mem_cons_self x0 tl)
            · rcases List.mem_append.mp h1 with h2 | h2
              · exact Or.inr ⟨x0, List.mem_cons_self x0 tl, (hmem0' j).mp h2⟩
              · rcases (hmem1' j).mp h2 with h3 | ⟨x, hx, h4⟩
                · exact Or.inl (List.mem_cons_of_mem x0 h3)
                · exact Or.inr ⟨x, List.mem_cons_of_mem x0 hx, h4⟩
          · intro hj
            rcases hj with h1 | ⟨x, hx, h2⟩
            · rcases List.mem_cons.mp h1 with rfl | h2
              · exact List.mem_cons_self _ _
              · exact List.mem_cons_of_mem _
                  (List.mem_append.mpr (Or.inr ((hmem1' j).mpr (Or.inl h2))))
            · rcases List.mem_cons.mp hx with rfl | hx'
              · exact List.mem_cons_of_mem _
                  (List.mem_append.mpr (Or.inl ((hmem0' j).mpr h2)))
              · exact List.mem_cons_of_mem _
                  (List.mem_append.mpr (Or.inr ((hmem1' j).mpr (Or.inr ⟨x, hx', h2⟩))))
        · refine List.nodup_cons.mpr ⟨?_, ?_⟩
          · intro hx0in
            rcases List.mem_append.mp hx0in with h1 | h1
            · exact not_reach_self a rank hra x0 ((hmem0' x0).mp h1)
            · rcases (hmem1' x0).mp h1 with h2 | ⟨x, hx, h3⟩
              · exact hx0tl h2
              · exact ext_disjoint' a rank hra hoa hva (htl x hx) hmemx0
                  (Ne.symm (hne_x0 x hx)) (Or.inr h3) (Or.inl rfl)
          · rw [List.nodup_append]
            refine ⟨hnd0, hnd1, ?_⟩
            intro j hj0 hj1
            have hr0 := (hmem0' j).mp hj0
            rcases (hmem1' j).mp hj1 with h2 | ⟨x, hx, h3⟩
            · exact ext_disjoint' a rank hra hoa hva hmemx0 (htl j h2)
                (hne_x0 j h2) (Or.inr hr0) (Or.inl rfl)
            · exact ext_disjoint' a rank hra hoa hva hmemx0 (htl x hx)
                (hne_x0 x hx) (Or.inr hr0) (Or.inr h3)
        · have hSdecomp : ∀ k, (k = c ∨ Reach a c k) ↔
              (k = c ∨ ((k = x0 ∨ Reach a x0 k) ∨
                (k ∈ tl ∨ ∃ x ∈ tl, Reach a x k))) := by
            intro k
            constructor
            · rintro (rfl | h)
              · exact Or.inl rfl
              · rcases (reach_iff a c k).mp h with h1 | ⟨x, hx, h2⟩
                · rw [hL] at h1
                  rcases List.mem_cons.mp h1 with rfl | h1'
                  · exact Or.inr (Or.inl (Or.inl rfl))
                  · exact Or.inr (Or.inr (Or.inl h1'))
                · rw [hL] at hx
                  rcases List.mem_cons.mp hx with rfl | hx'
                  · exact Or.inr (Or.inl (Or.inr h2))
                  · exact Or.inr (Or.inr (Or.inr ⟨x, hx', h2⟩))
            · rintro (rfl | (rfl | h) | h | ⟨x, hx, h2⟩)
              · exact Or.inl rfl
              · exact Or.inr (Relation.TransGen.single hmemx0)
              · exact Or.inr (Relation.TransGen.head hmemx0 h)
              · exact Or.inr (Relation.TransGen.single (htl _ h))
              · exact Or.inr (Relation.TransGen.head (htl x hx) h2)
          have hS2iff : ∀ k, (k = c ∨ Reach a2 c k) ↔
              (k = c ∨ (k ∈ tl ∨ ∃ x ∈ tl, Reach a x k)) := by
            intro k
            constructor
            · rintro (rfl | h)
              · exact Or.inl rfl
              · rcases (reach_iff a2 c k).mp h with h1 | ⟨x, hx, h2⟩
                · rw [hch2c] at h1
                  exact Or.inr (Or.inl h1)
                · rw [hch2c] at hx
                  exact Or.inr (Or.inr ⟨x, hx, (hreachtl2 x hx k).mp h2⟩)
            · rintro (rfl | h | ⟨x, hx, h2⟩)
              · exact Or.inl rfl
              · refine Or.inr ((reach_iff a2 c k).mpr (Or.inl ?_))
                rw [hch2c]
                exact h
              · refine Or.inr ((reach_iff a2 c k).mpr (Or.inr ⟨x, ?_, ?_⟩))
                · rw [hch2c]
                  exact hx
                · exact (hreachtl2 x hx k).mpr h2
          refine ⟨(hemp1.len.trans hemp0.len).trans hlen1, ?_, ?_⟩
          · intro k hk
            rcases (hSdecomp k).mp hk with rfl | hE0 | hT
            · rw [hemp1.mem k (Or.inl rfl), hemp0.not_mem k hcnotS1,
                setKids_get?, Option.map_map]
              cases a[k]? with
              | none => rfl
              | some n => simp [clearKids]
            · have hkc : k ≠ c := by
                rintro rfl
                exact parent_not_in_ext a rank hra hmemx0 hE0
              have hknotS2 : ¬ (k = c ∨ Reach a2 c k) := by
                rw [hS2iff k]
                rintro (h | hT2)
                · exact hkc h
                · rcases hT2 with h1 | ⟨x, hx, h2⟩
                  · exact ext_disjoint' a rank hra hoa hva hmemx0 (htl k h1)
                      (hne_x0 k h1) hE0 (Or.inl rfl)
                  · exact ext_disjoint' a rank hra hoa hva hmemx0 (htl x hx)
                      (hne_x0 x hx) hE0 (Or.inr h2)
              rw [hemp1.not_mem k hknotS2, hemp0.mem k ((hS1iff k).mpr hE0),
                setKids_get?_ne a c tl k hkc]
            · have hkc : k ≠ c := by
                rintro rfl
                rcases hT with h | ⟨x, hx, h2⟩
                · exact absurd (ranked_child a rank hra (htl _ h)) (lt_irrefl _)
                · exact parent_not_in_ext a rank hra (htl x hx) (Or.inr h2)
              have hknotS1 : ¬ (k = x0 ∨ Reach (setKids a c tl) x0 k) := by
                rw [hS1iff k]
                intro hE0
                rcases hT with h1 | ⟨x, hx, h2⟩
                · exact ext_disjoint' a rank hra hoa hva hmemx0 (htl k h1)
                    (hne_x0 k h1) hE0 (Or.inl rfl)
                · exact ext_disjoint' a rank hra hoa hva hmemx0 (htl x hx)
                    (hne_x0 x hx) hE0 (Or.inr h2)
              rw [hemp1.mem k ((hS2iff k).mpr (Or.inr hT)),
                hemp0.not_mem k hknotS1, setKids_get?_ne a c tl k hkc]
          · intro k hk
            have hkc : k ≠ c := fun h => hk (Or.inl h)
            have hknotS2 : ¬ (k = c ∨ Reach a2 c k) := by
              rw [hS2iff k]
              rintro (h | hT)
              · exact hkc h
              · exact hk ((hSdecomp k).mpr (Or.inr (Or.inr hT)))
            have hknotS1 : ¬ (k = x0 ∨ Reach (setKids a c tl) x0 k) := by
              rw [hS1iff k]
              intro hE0
              exact hk ((hSdecomp k).mpr (Or.inr (Or.inl hE0)))
            rw [hemp1.not_mem k hknotS2, hemp0.not_mem k hknotS1,
              setKids_get?_ne a c tl k hkc]

/-- Draining the initial copied list (`n.children.copy()`): `i`'s own
`children` list is untouched (only the local copy is consumed), while
every child in the copy and everything below it is yielded once and has
its `children` emptied. -/
theorem copyDrain (rank : Nat → Nat) :
    ∀ (L : List Nat) (a : Arena) (i : Nat),
      RankedB a rank → OccB a → ValidB a → i < a.length →
      List.Sublist L (childrenOf a i) →
      ∃ (f : Nat) (a' : Arena) (ys : List Nat),
        descRun f a [StackEntry.copy L] [] = some (a', ys) ∧
        (∀ j, j ∈ ys ↔ (j ∈ L ∨ ∃ x ∈ L, Reach a x j)) ∧ ys.Nodup ∧
        Emptied a a' (fun k => k ∈ L ∨ ∃ x ∈ L, Reach a x k) := by
  intro L
  induction L with
  | nil =>
    intro a i hra hoa hva hi hsub
    refine ⟨2, a, [], ?_, ?_, List.nodup_nil, ?_⟩
    · rw [descRun_succ,
        descStep_cons_empty a (StackEntry.copy []) [] rfl]
      rfl
    · intro j
      simp
    · refine ⟨rfl, fun k hk => ?_, fun k _ => rfl⟩
      rcases hk with h | ⟨x, hx, _⟩
      · cases h
      · cases hx
  | cons x0 tl ih =>
    intro a i hra hoa hva hi hsub
    have hmemx0 : x0 ∈ childrenOf a i := hsub.subset (List.mem_cons_self x0 tl)
    have hndL : (x0 :: tl).Nodup :=
      List.Sublist.nodup hsub (childrenOf_nodup a hoa hva i)
    have hx0tl : x0 ∉ tl := (List.nodup_cons.mp hndL).1
    have hsubtl : List.Sublist tl (childrenOf a i) :=
      (List.sublist_cons_self x0 tl).trans hsub
    have htl : ∀ x ∈ tl, x ∈ childrenOf a i := fun x hx => hsubtl.subset hx
    have hne_x0 : ∀ x ∈ tl, x0 ≠ x := by
      intro x hx he
      subst he
      exact hx0tl hx
    have hx0len : x0 < a.length := valid_child a hva hmemx0
    have hinotext : ∀ k, (k = x0 ∨ Reach a x0 k) → k ≠ i := by
      rintro k hk rfl
      exact parent_not_in_ext a rank hra hmemx0 hk
    by_cases hK : childrenOf a x0 = []
    · -- popped child is a leaf: nothing pushed, arena unchanged
      have hstepB : descStep a [StackEntry.copy (x0 :: tl)] =
          some (a, [StackEntry.copy tl], some x0) := by
        rw [descStep_copy_cons, if_neg (by simpa using hK)]
      have hnoreach : ∀ j, ¬ Reach a x0 j := by
        intro j h
        rcases (reach_iff a x0 j).mp h with h1 | ⟨x, hx, _⟩
        · rw [hK] at h1
          cases h1
        · rw [hK] at hx
          cases hx
      obtain ⟨f2, a3, ys1, hrun2, hmem1, hnd1, hemp1⟩ :=
        ih a i hra hoa hva hi hsubtl
      refine ⟨f2 + 1, a3, x0 :: ys1, ?_, ?_, ?_, ?_⟩
      · rw [descRun_succ, hstepB]
        show descRun f2 a [StackEntry.copy tl] [x0] = some (a3, x0 :: ys1)
        rw [descRun_out, hrun2]
        rfl
      · intro j
        constructor
        · intro hj
          rcases List.mem_cons.mp hj with h0 | h1
          · rw [h0]
            exact Or.inl (List.mem_cons_self x0 tl)
          · rcases (hmem1 j).mp h1 with h2 | ⟨x, hx, h3⟩
            · exact Or.inl (List.mem_cons_of_mem x0 h2)
            · exact Or.inr ⟨x, List.mem_cons_of_mem x0 hx, h3⟩
        · intro hj
          rcases hj with h1 | ⟨x, hx, h2⟩
          · rcases List.mem_cons.mp h1 with rfl | h2
            · exact List.mem_cons_self _ _
            · exact List.mem_cons_of_mem _ ((hmem1 j).mpr (Or.inl h2))
          · rcases List.mem_cons.mp hx with rfl | hx'
            · exact absurd h2 (hnoreach j)
            · exact List.mem_cons_of_mem _ ((hmem1 j).mpr (Or.inr ⟨x, hx', h2⟩))
      · refine List.nodup_cons.mpr ⟨?_, hnd1⟩
        intro hx0in
        rcases (hmem1 x0).mp hx0in with h2 | ⟨x, hx, h3⟩
        · exact hx0tl h2
        · exact ext_disjoint' a rank hra hoa hva (htl x hx) hmemx0
            (Ne.symm (hne_x0 x hx)) (Or.inr h3) (Or.inl rfl)
      · have hx0notT : ¬ (x0 ∈ tl ∨ ∃ x ∈ tl, Reach a x x0) := by
          rintro (h | ⟨x, hx, h2⟩)
          · exact hx0tl h
          · exact ext_disjoint' a rank hra hoa hva (htl x hx) hmemx0
              (Ne.symm (hne_x0 x hx)) (Or.inr h2) (Or.inl rfl)
        refine ⟨hemp1.len, ?_, ?_⟩
        · intro k hk
          rcases hk with h1 | ⟨x, hx, h2⟩
          · rcases List.mem_cons.mp h1 with rfl | h2
            · rw [hemp1.not_mem k hx0notT, map_clearKids_of_empty a k hK]
            · exact hemp1.mem k (Or.inl h2)
          · rcases List.mem_cons.mp hx with rfl | hx'
            · exact absurd h2 (hnoreach k)
            · exact hemp1.mem k (Or.inr ⟨x, hx', h2⟩)
        · intro k hk
          apply hemp1.not_mem
          rintro (h | ⟨x, hx, h2⟩)
          · exact hk (Or.inl (List.mem_cons_of_mem x0 h))
          · exact hk (Or.inr ⟨x, List.mem_cons_of_mem x0 hx, h2⟩)
    · -- popped child has children: its list is pushed and fully drained
      have hstepA : descStep a [StackEntry.copy (x0 :: tl)] =
          some (a, [StackEntry.shared x0, StackEntry.copy tl], some x0) := by
        rw [descStep_copy_cons, if_pos hK]
      obtain ⟨f1, a2, ys0, hrun1, hmem0, hnd0, hemp0⟩ :=
        sharedDrain rank (rank x0 + 1) (childrenOf a x0) a x0 hra hoa hva
          hx0len (Nat.lt_succ_self _) rfl
      have hsh2 : Shrunk a a2 := emptied_shrunk hemp0
      have hch2i : childrenOf a2 i = childrenOf a i := by
        apply emptied_childrenOf_not_mem hemp0
        intro h
        exact hinotext i h rfl
      obtain ⟨f2, a3, ys1, hrun2, hmem1, hnd1, hemp1⟩ :=
        ih a2 i (shrunk_ranked rank hsh2 hra) (shrunk_occ hsh2 hoa)
          (shrunk_valid hsh2 hva) (by rw [hsh2.len]; exact hi)
          (by rw [hch2i]; exact hsubtl)
      have hagree2 : ∀ x, x ∈ tl → ∀ k, (k = x ∨ Reach a x k) →
          childrenOf a2 k = childrenOf a k := by
        intro x hx k hk
        apply emptied_childrenOf_not_mem hemp0
        intro h1
        exact ext_disjoint' a rank hra hoa hva (htl x hx) hmemx0
          (Ne.symm (hne_x0 x hx)) hk h1
      have hreachtl2 : ∀ x ∈ tl, ∀ j, Reach a2 x j ↔ Reach a x j :=
        fun x hx => reach_iff_of_agree (shrunk_children_subset hsh2) (hagree2 x hx)
      have hmem1' : ∀ j, j ∈ ys1 ↔ (j ∈ tl ∨ ∃ x ∈ tl, Reach a x j) := by
        intro j
        rw [hmem1 j]
        constructor
        · rintro (h | ⟨x, hx, h2⟩)
          · exact Or.inl h
          · exact Or.inr ⟨x, hx, (hreachtl2 x hx j).mp h2⟩
        · rintro (h | ⟨x, hx, h2⟩)
          · exact Or.inl h
          · exact Or.inr ⟨x, hx, (hreachtl2 x hx j).mpr h2⟩
      have hcomp : descRun (f1 + f2) a
          [StackEntry.shared x0, StackEntry.copy tl] [] = some (a3, ys0 ++ ys1) :=
        descRun_append f2 f1 a [StackEntry.shared x0] [StackEntry.copy tl]
          a2 ys0 (a3, ys1) hrun1 hrun2
      refine ⟨f1 + f2 + 1, a3, x0 :: (ys0 ++ ys1), ?_, ?_, ?_, ?_⟩
      · rw [descRun_succ, hstepA]
        show descRun (f1 + f2) a [StackEntry.shared x0, StackEntry.copy tl] [x0] =
          some (a3, x0 :: (ys0 ++ ys1))
        rw [descRun_out, hcomp]
        rfl
      · intro j
        constructor
        · intro hj
          rcases List.mem_cons.mp hj with h0 | h1
          · rw [h0]
            exact Or.inl (List.mem_cons_self x0 tl)
          · rcases List.mem_append.mp h1 with h2 | h2
            · exact Or.inr ⟨x0, List.mem_cons_self x0 tl, (hmem0 j).mp h2⟩
            · rcases (hmem1' j).mp h2 with h3 | ⟨x, hx, h4⟩
              · exact Or.inl (List.mem_cons_of_mem x0 h3)
              · exact Or.inr ⟨x, List.mem_cons_of_mem x0 hx, h4⟩
        · intro hj
          rcases hj with h1 | ⟨x, hx, h2⟩
          · rcases List.mem_cons.mp h1 with rfl | h2
            · exact List.mem_cons_self _ _
            · exact List.mem_cons_of_mem _
                (List.mem_append.mpr (Or.inr ((hmem1' j).mpr (Or.inl h2))))
          · rcases List.mem_cons.mp hx with rfl | hx'
            · exact List.mem_cons_of_mem _
                (List.mem_append.mpr (Or.inl ((hmem0 j).mpr h2)))
            · exact List.mem_cons_of_mem _
                (List.mem_append.mpr (Or.inr ((hmem1' j).mpr (Or.inr ⟨x, hx', h2⟩))))
      · refine List.nodup_cons.mpr ⟨?_, ?_⟩
        · intro hx0in
          rcases List.mem_append.mp hx0in with h1 | h1
          · exact not_reach_self a rank hra x0 ((hmem0 x0).mp h1)
          · rcases (hmem1' x0).mp h1 with h2 | ⟨x, hx, h3⟩
            · exact hx0tl h2
            · exact ext_disjoint' a rank hra hoa hva (htl x hx) hmemx0
                (Ne.symm (hne_x0 x hx)) (Or.inr h3) (Or.inl rfl)
        · rw [List.nodup_append]
          refine ⟨hnd0, hnd1, ?_⟩
          intro j hj0 hj1
          have hr0 := (hmem0 j).mp hj0
          rcases (hmem1' j).mp hj1 with h2 | ⟨x, hx, h3⟩
          · exact ext_disjoint' a rank hra hoa hva hmemx0 (htl j h2)
              (hne_x0 j h2) (Or.inr hr0) (Or.inl rfl)
          · exact ext_disjoint' a rank hra hoa hva hmemx0 (htl x hx)
              (hne_x0 x hx) (Or.inr hr0) (Or.inr h3)
      · have hS2iff : ∀ k, (k ∈ tl ∨ ∃ x ∈ tl, Reach a2 x k) ↔
            (k ∈ tl ∨ ∃ x ∈ tl, Reach a x k) := by
          intro k
          constructor
          · rintro (h | ⟨x, hx, h2⟩)
            · exact Or.inl h
            · exact Or.inr ⟨x, hx, (hreachtl2 x hx k).mp h2⟩
          · rintro (h | ⟨x, hx, h2⟩)
            · exact Or.inl h
            · exact Or.inr ⟨x, hx, (hreachtl2 x hx k).mpr h2⟩
        refine ⟨hemp1.len.trans hemp0.len, ?_, ?_⟩
        · intro k hk
          by_cases hE0 : k = x0 ∨ Reach a x0 k
          · have hknotS2 : ¬ (k ∈ tl ∨ ∃ x ∈ tl, Reach a2 x k) := by
              rw [hS2iff k]
              rintro (h1 | ⟨x, hx, h2⟩)
              · exact ext_disjoint' a rank hra hoa hva hmemx0 (htl k h1)
                  (hne_x0 k h1) hE0 (Or.inl rfl)
              · exact ext_disjoint' a rank hra hoa hva hmemx0 (htl x hx)
                  (hne_x0 x hx) hE0 (Or.inr h2)
            rw [hemp1.not_mem k hknotS2, hemp0.mem k hE0]
          · have hT : k ∈ tl ∨ ∃ x ∈ tl, Reach a x k := by
              rcases hk with h1 | ⟨x, hx, h2⟩
              · rcases List.mem_cons.mp h1 with h0 | h2
                · exact absurd (Or.inl h0) hE0
                · exact Or.inl h2
              · rcases List.mem_cons.mp hx with rfl | hx'
                · exact absurd (Or.inr h2) hE0
                · exact Or.inr ⟨x, hx', h2⟩
            rw [hemp1.mem k ((hS2iff k).mpr hT), hemp0.not_mem k hE0]
        · intro k hk
          have hknotE0 : ¬ (k = x0 ∨ Reach a x0 k) := by
            rintro (rfl | h)
            · exact hk (Or.inl (List.mem_cons_self _ _))
            · exact hk (Or.inr ⟨x0, List.mem_cons_self _ _, h⟩)
          have hknotS2 : ¬ (k ∈ tl ∨ ∃ x ∈ tl, Reach a2 x k) := by
            rw [hS2iff k]
            rintro (h | ⟨x, hx, h2⟩)
            · exact hk (Or.inl (List.mem_cons_of_mem x0 h))
            · exact hk (Or.inr ⟨x, List.mem_cons_of_mem x0 hx, h2⟩)
          rw [hemp1.not_mem k hknotS2, hemp0.not_mem k hknotE0]

/-- C5: on a well-formed finite acyclic tree (child indices in range,
each index having at most one parent edge, a rank decreasing along child
edges), a full enumeration of `descendants(n)` terminates and yields
exactly the nodes reachable from `n` through `children` edges, each
exactly once, never `n` itself. -/
theorem claim_C5_descendants_complete (a : Arena) (rank : Nat → Nat)
    (hra : RankedB a rank) (hoa : OccB a) (hva : ValidB a)
    (i : Nat) (hi : i < a.length) :
    ∃ (f : Nat) (a' : Arena) (ys : List Nat),
      descendantsRun a i f = some (a', ys) ∧ ys.Nodup ∧
      (∀ j, j ∈ ys ↔ Reach a i j) ∧ i ∉ ys := by
  obtain ⟨f, a', ys, hrun, hmem, hnd, _⟩ :=
    copyDrain rank (childrenOf a i) a i hra hoa hva hi (List.Sublist.refl _)
  refine ⟨f, a', ys, hrun, hnd, ?_, ?_⟩
  · intro j
    exact (hmem j).trans (reach_iff a i j).symm
  · intro hin
    exact not_reach_self a rank hra i ((reach_iff a i i).mpr ((hmem i).mp hin))

/-- Witness for C5 at the sample tree, rooted at node index 0 (id 1),
with rank decreasing along child edges. -/
theorem claim_C5_witness :
    (RankedB sampleTree (fun k => 9 - k) ∧ OccB sampleTree ∧
      ValidB sampleTree ∧ 0 < sampleTree.length) ∧
    (∃ (f : Nat) (a' : Arena) (ys : List Nat),
      descendantsRun sampleTree 0 f = some (a', ys) ∧ ys.Nodup ∧
      (∀ j, j ∈ ys ↔ Reach sampleTree 0 j) ∧ 0 ∉ ys) :=
  ⟨⟨by unfold RankedB; decide, by unfold OccB totalCount; decide,
      by unfold ValidB; decide, by decide⟩,
    claim_C5_descendants_complete sampleTree (fun k => 9 - k)
      (by unfold RankedB; decide) (by unfold OccB totalCount; decide)
      (by unfold ValidB; decide) 0 (by decide)⟩
